import Mathlib

/-!
Verification of the broker-connector layer of the momentum_analysis repository.

The definitions below are a shallow embedding of
`backend/app/services/broker/futu_connector.py` and
`backend/app/services/broker/ibkr_connector.py`:

* Python `float` values are embedded as exact numbers (`ℚ` where the source
  only does field arithmetic and comparisons, `ℝ` where a square root is
  taken); wall-clock instants (`time.time()`) are `ℚ`.
* Vendor API calls (`get_option_chain`, `get_market_snapshot`, the network
  dial) are oracle parameters of the embedded functions.
* Python dicts are association lists with insert-or-overwrite semantics
  (`dictInsert`); insertion order is preserved, as in CPython.
* A raised exception is an `Except.error` / `Option.none` value.
-/

namespace Momentum

/-! ## RateLimiter (futu_connector.py lines 59-91) -/

/-- State of `RateLimiter`: `max_calls`, `period_seconds`, and the deque of
recorded call timestamps (oldest first). -/
structure RateLimiter where
  max_calls : ℕ
  period_seconds : ℚ
  calls : List ℚ
deriving DecidableEq

/-- The eviction loop at the head of `RateLimiter.acquire`:
`while self.calls and now - self.calls[0] >= self.period_seconds: popleft()`. -/
def RateLimiter.evict (rl : RateLimiter) (now : ℚ) : List ℚ :=
  rl.calls.dropWhile (fun c => decide (rl.period_seconds ≤ now - c))

/-- Embedding of `RateLimiter.acquire` called at wall-clock instant `now`.
Returns the state after the call together with the instant at which the new
call is recorded (`time.time()` after an eventual sleep).  `none` models the
`IndexError` the Python code would raise reading `self.calls[0]` from an
empty deque (only reachable when `max_calls = 0`). -/
def RateLimiter.acquire (rl : RateLimiter) (now : ℚ) : Option (RateLimiter × ℚ) :=
  let kept := rl.evict now
  if rl.max_calls ≤ kept.length then
    match kept with
    | [] => none
    | c0 :: _ =>
      let sleep_seconds := rl.period_seconds - (now - c0) + 1 / 100
      let t := if 0 < sleep_seconds then now + sleep_seconds else now
      some (⟨rl.max_calls, rl.period_seconds, kept ++ [t]⟩, t)
  else
    some (⟨rl.max_calls, rl.period_seconds, kept ++ [now]⟩, now)

/-- A sequential trace of `acquire` calls: `t` is the instant the previous
call returned, and each element `d ≥ 0` of the list is the delay before the
next call is issued.  Returns the recorded (admitted) timestamps. -/
def runAcquire : RateLimiter → ℚ → List ℚ → Option (List ℚ)
  | _, _, [] => some []
  | rl, t, d :: ds =>
    match rl.acquire (t + d) with
    | none => none
    | some (rlNext, a) =>
      match runAcquire rlNext a ds with
      | none => none
      | some as => some (a :: as)

/-- Membership of a timestamp in the trailing window `(T - W, T]`; the code's
eviction keeps exactly the timestamps `c` with `now - c < period_seconds`. -/
def inWindow (W T a : ℚ) : Bool := decide (T - W < a ∧ a ≤ T)

/-- Reachability invariant of the limiter: the deque never exceeds
`max_calls + 1` entries, and when it does reach `max_calls + 1` its head has
already left the trailing window; the full admission history splits into the
evicted prefix (all older than the window) and the deque; and every trailing
window of width `period_seconds` contains at most `max_calls` admissions. -/
def RateLimiterInv (N : ℕ) (W t : ℚ) (rl : RateLimiter) (hist : List ℚ) : Prop :=
  rl.max_calls = N ∧
  rl.period_seconds = W ∧
  rl.calls.length ≤ N + 1 ∧
  (rl.calls.length = N + 1 → ∃ c0 cs, rl.calls = c0 :: cs ∧ c0 + W < t) ∧
  (∃ pre, hist = pre ++ rl.calls ∧ ∀ a ∈ pre, a + W ≤ t) ∧
  (∀ T, hist.countP (inWindow W T) ≤ N)

/-! ## IBKR connection manager (ibkr_connector.py lines 254-301) -/

/-- Embedding of the `ib_insync` client object: only its `isConnected()`
observable matters to `_connect_impl`. -/
structure IBClient where
  is_connected : Bool
deriving DecidableEq

/-- Connection state of `IBKRConnectorReal`: the `_connected` flag and the
(optional) vendor client `self.ib`. -/
structure IBKRConnState where
  connected : Bool
  ib : Option IBClient
deriving DecidableEq

/-- The guard `if self._connected and self.ib and self.ib.isConnected()` at
the top of `_connect_impl`. -/
def IBKRConnState.already_connected (s : IBKRConnState) : Bool :=
  s.connected && (match s.ib with
    | some ib => ib.is_connected
    | none => false)

/-- Embedding of `_connect_impl`.  `dial_ok` is the outcome of the vendor
dial (`self.ib.connect(...)` succeeding or raising).  Returns the new state,
the boolean result, and the number of dial attempts performed. -/
def connect_impl (s : IBKRConnState) (dial_ok : Bool) : IBKRConnState × Bool × ℕ :=
  if s.already_connected then
    (s, true, 0)
  else if dial_ok then
    ({ connected := true, ib := some ⟨true⟩ }, true, 1)
  else
    ({ connected := false, ib := some ⟨false⟩ }, false, 1)

/-! ## OI cache locking discipline (futu_connector.py lines 590-644)

`batch_compute_delta_oi` performs `_load_oi_cache()` (lock acquire, file
read, lock release), then computes the deltas with no lock held, then
`_save_oi_cache(cache)` (lock acquire, file write, lock release).  We model
the lock-relevant events of one call as an event trace and interleavings of
two concurrent callers under the semantics of `threading.Lock`. -/

/-- One lock-relevant event of a thread `tid` running
`batch_compute_delta_oi`. -/
inductive CacheEv where
  | acq (tid : ℕ)
  | rel (tid : ℕ)
  | read (tid : ℕ)
  | write (tid : ℕ)
  | compute (tid : ℕ)
deriving DecidableEq

/-- The event trace of one `batch_compute_delta_oi` call by thread `t`,
read off the source: `_load_oi_cache` holds `CACHE_LOCK` around the read,
the delta computation runs with no lock held, and `_save_oi_cache` holds
`CACHE_LOCK` around the write. -/
def batch_lock_trace (t : ℕ) : List CacheEv :=
  [.acq t, .read t, .rel t, .compute t, .acq t, .write t, .rel t]

/-- Validity of a completed schedule under a single mutual-exclusion lock:
an acquire only proceeds when the lock is free, a release must come from the
holder, and the cache read/write events require the lock to be held by their
thread (they occur inside the `with CACHE_LOCK` blocks). -/
def lockCheck : Option ℕ → List CacheEv → Bool
  | _, [] => true
  | st, e :: rest =>
    match e, st with
    | .acq t, none => lockCheck (some t) rest
    | .acq _, some _ => false
    | .rel t, some t' => t' = t && lockCheck none rest
    | .rel _, none => false
    | .read t, st => (st = some t : Bool) && lockCheck st rest
    | .write t, st => (st = some t : Bool) && lockCheck st rest
    | .compute _, st => lockCheck st rest

/-- Decides whether `zs` is an interleaving of `xs` and `ys` (each list a
subsequence, orders preserved, every event used once). -/
def isInterleaving : List CacheEv → List CacheEv → List CacheEv → Bool
  | [], [], [] => true
  | [], y :: ys, z :: zs => y = z && isInterleaving [] ys zs
  | x :: xs, [], z :: zs => x = z && isInterleaving xs [] zs
  | x :: xs, y :: ys, z :: zs =>
    (x = z && isInterleaving xs (y :: ys) zs) || (y = z && isInterleaving (x :: xs) ys zs)
  | _ :: _, _, [] => false
  | _, _ :: _, [] => false
  | [], [], _ :: _ => false

/-- A concrete valid schedule of two concurrent `batch_compute_delta_oi`
callers in which caller 1's write lands between caller 0's read and caller
0's write. -/
def lostUpdateSchedule : List CacheEv :=
  [.acq 0, .read 0, .rel 0,
   .acq 1, .read 1, .rel 1, .compute 1, .acq 1, .write 1, .rel 1,
   .compute 0, .acq 0, .write 0, .rel 0]

/-! ## Data model of the IV pipeline (futu_connector.py lines 29-57, 519-571) -/

/-- Option type of a contract (`futu.OptionType`). -/
inductive OptionType where
  | call
  | put
deriving DecidableEq

/-- Embedding of the `OptionContract` dataclass. -/
structure OptionContract where
  code : String
  option_type : OptionType
deriving DecidableEq

/-- Embedding of one vendor snapshot record (a dict in the source).  The
key-variant fallbacks of `_get_snapshot_value` (`['option_delta','delta']`,
`['option_implied_volatility','implied_volatility','iv']`,
`['option_open_interest','open_interest','oi']`) are collapsed into one
optional field each; float payloads are exact rationals. -/
structure Snapshot where
  code : Option String
  option_code : Option String
  option_delta : Option ℚ
  option_implied_volatility : Option ℚ
  option_open_interest : Option ℤ
deriving DecidableEq

/-- Embedding of the `IVTermResult` dataclass.  IV fields are reals because
`_interpolate_iv` takes a square root. -/
structure IVTermResult where
  iv7 : Option ℝ
  iv30 : Option ℝ
  iv60 : Option ℝ
  iv90 : Option ℝ
  total_oi : Option ℤ

/-- The default-constructed `IVTermResult()` (all dataclass fields `None`). -/
def IVTermResult.empty : IVTermResult := ⟨none, none, none, none, none⟩

/-- Embedding of `IVTermResult.is_valid`: true iff any IV field is set. -/
def IVTermResult.is_valid (r : IVTermResult) : Bool :=
  r.iv7.isSome || r.iv30.isSome || r.iv60.isSome || r.iv90.isSome

/-- Insert-or-overwrite into a Python dict modelled as an association list:
an existing key keeps its position and gets the new value, a new key is
appended (CPython insertion-order semantics). -/
def dictInsert {κ α : Type} [DecidableEq κ] (m : List (κ × α)) (k : κ) (v : α) :
    List (κ × α) :=
  if m.any (fun p => p.1 = k) then
    m.map (fun p => if p.1 = k then (k, v) else p)
  else
    m ++ [(k, v)]

/-! ## TermInterpolator (`_interpolate_iv`, futu_connector.py lines 532-571) -/

/-- Result of the `for dte, iv in points` scan loop of `_interpolate_iv`:
either an early `return iv` on an exact DTE match, or the final values of
the `lower` and `upper` locals (the loop breaks as soon as `upper` is set). -/
inductive ScanResult where
  | exact (iv : ℚ)
  | sides (lower upper : Option (ℤ × ℚ))
deriving DecidableEq

/-- The scan loop of `_interpolate_iv`; `lower` is the loop-carried `lower`
local (initially `None`). -/
def scan_points (target_day : ℤ) : List (ℤ × ℚ) → Option (ℤ × ℚ) → ScanResult
  | [], lower => .sides lower none
  | (dte, iv) :: rest, lower =>
    if dte = target_day then .exact iv
    else if dte < target_day then scan_points target_day rest (some (dte, iv))
    else .sides lower (some (dte, iv))

/-- Embedding of `FutuConnector._interpolate_iv` (variance-space
interpolation).  `points` are the (DTE, ATM-IV%) samples; Python's
`var_t ** 0.5` is `Real.sqrt` (its argument, a convex combination of
squares, is never negative on the reachable paths). -/
noncomputable def interpolate_iv (points : List (ℤ × ℚ)) (target_day : ℤ) : Option ℝ :=
  match points with
  | [] => none
  | [(_, iv)] => some (iv : ℝ)
  | p :: q :: rest =>
    match scan_points target_day (p :: q :: rest) none with
    | .exact iv => some (iv : ℝ)
    | .sides (some (d1, iv1)) (some (d2, iv2)) =>
      if d2 = d1 then some (iv1 : ℝ)
      else
        let var1 : ℚ := (iv1 / 100) ^ 2
        let var2 : ℚ := (iv2 / 100) ^ 2
        let weight : ℚ := ((target_day - d1 : ℤ) : ℚ) / ((d2 - d1 : ℤ) : ℚ)
        let var_t : ℚ := var1 + (var2 - var1) * weight
        some (Real.sqrt (var_t : ℝ) * 100)
    | .sides (some lower) none => some (lower.2 : ℝ)
    | .sides none (some upper) => some (upper.2 : ℝ)
    | .sides none none => none

/-! ## ATM selection and totals (futu_connector.py lines 489-530, 692-698) -/

/-- Embedding of `FutuConnector._normalize_iv`. -/
def normalize_iv (iv : ℚ) : ℚ :=
  if iv ≤ 3 / 2 then iv * 100 else iv

/-- Embedding of `FutuConnector._pick_atm_iv`: among the call contracts
with a snapshot carrying both delta and IV, keep the IV (normalised) of the
one whose delta is closest to 0.5; earlier contracts win ties. -/
def pick_atm_iv (contracts : List OptionContract)
    (snapshot_map : List (String × Snapshot)) : Option ℚ :=
  (contracts.foldl
    (fun (best : Option ℚ × Option ℚ) contract =>
      if contract.option_type ≠ OptionType.call then best
      else
        match snapshot_map.lookup contract.code with
        | none => best
        | some snapshot =>
          match snapshot.option_delta, snapshot.option_implied_volatility with
          | some delta, some iv =>
            let diff := |delta - 1 / 2|
            match best.2 with
            | none => (some (normalize_iv iv), some diff)
            | some best_diff =>
              if diff < best_diff then (some (normalize_iv iv), some diff) else best
          | _, _ => best)
    (none, none)).1

/-- Embedding of `FutuConnector._sum_open_interest`. -/
def sum_open_interest (snapshot_map : List (String × Snapshot)) : Option ℤ :=
  let acc := snapshot_map.foldl
    (fun (acc : ℤ × Bool) p =>
      match p.2.option_open_interest with
      | some oi => (acc.1 + oi, true)
      | none => acc)
    (0, false)
  if acc.2 then some acc.1 else none

/-- Embedding of `FutuConnector._build_dte_points`.  Calendar dates are day
numbers (`ℤ`); `parse_date` abstracts `_parse_date` on expiry strings.  The
final `points.sort(key=lambda x: x[0])` is a stable sort by DTE. -/
def build_dte_points (parse_date : String → Option ℤ) (today : ℤ)
    (expirations : List (String × List OptionContract))
    (snapshot_map : List (String × Snapshot)) : List (ℤ × ℚ) :=
  let points := expirations.foldl
    (fun (pts : List (ℤ × ℚ)) e =>
      match parse_date e.1 with
      | none => pts
      | some exp_date =>
        let dte := exp_date - today
        if dte ≤ 0 then pts
        else
          match pick_atm_iv e.2 snapshot_map with
          | none => pts
          | some iv => pts ++ [(dte, iv)])
    []
  points.insertionSort (fun p q => p.1 ≤ q.1)

/-! ## SnapshotFetcher (`_fetch_snapshot_map`, futu_connector.py lines 434-461) -/

/-- The futu `RET_OK` return code. -/
def RET_OK : ℤ := 0

/-- The chunking loop `for i in range(0, len(codes), chunk_size)` with
`chunk_size = 400`. -/
def chunked400 {α : Type} : List α → List (List α)
  | [] => []
  | x :: xs => ((x :: xs).take 400) :: chunked400 ((x :: xs).drop 400)
termination_by l => l.length
decreasing_by
  simp only [List.length_drop, List.length_cons]
  omega

/-- The record key `rec.get('code') or rec.get('option_code')`. -/
def snapshotKey (rec : Snapshot) : Option String :=
  rec.code <|> rec.option_code

/-- The inner merge step of `_fetch_snapshot_map`: store the record under
its code if it has one (`if code: snapshot_map[code] = rec`). -/
def insertSnapshotRecord (m : List (String × Snapshot)) (rec : Snapshot) :
    List (String × Snapshot) :=
  match snapshotKey rec with
  | some k => dictInsert m k rec
  | none => m

/-- Embedding of `FutuConnector._fetch_snapshot_map`.  `snap_api` is the
oracle for one `get_market_snapshot` call (return code and records); each
issued batch is preceded by `snapshot_limiter.acquire()` in the source.
Returns the merged map and the list of issued batches. -/
def fetch_snapshot_map (snap_api : List String → ℤ × List Snapshot)
    (expirations : List (String × List OptionContract)) :
    List (String × Snapshot) × List (List String) :=
  let codes := expirations.foldl
    (fun acc e => acc ++ e.2.map (fun c => c.code)) []
  let batches := chunked400 codes
  let m := batches.foldl
    (fun acc batch =>
      let rd := snap_api batch
      if rd.1 = RET_OK then rd.2.foldl insertSnapshotRecord acc
      else acc)
    []
  (m, batches)

/-- Specification-side view of the merge: the records of the successful
chunks, in order, with failed chunks contributing nothing. -/
def okRecords (snap_api : List String → ℤ × List Snapshot)
    (batches : List (List String)) : List Snapshot :=
  (batches.map (fun batch =>
    let rd := snap_api batch
    if rd.1 = RET_OK then rd.2 else [])).flatten

/-! ## Per-symbol IV pipeline (futu_connector.py lines 299-358) -/

/-- Embedding of `FutuConnector._fetch_symbol_iv_terms` downstream of the
network: `expirations` is the output of `_collect_expirations` and
`snap_api` the snapshot oracle.  An empty expirations map short-circuits to
the default `IVTermResult()`. -/
noncomputable def fetch_symbol_iv_terms
    (expirations : List (String × List OptionContract))
    (snap_api : List String → ℤ × List Snapshot)
    (parse_date : String → Option ℤ) (today : ℤ) : IVTermResult :=
  if expirations = [] then IVTermResult.empty
  else
    let snapshot_map := (fetch_snapshot_map snap_api expirations).1
    let dte_points := build_dte_points parse_date today expirations snapshot_map
    let total_oi := sum_open_interest snapshot_map
    { iv7 := interpolate_iv dte_points 7
      iv30 := interpolate_iv dte_points 30
      iv60 := interpolate_iv dte_points 60
      iv90 := interpolate_iv dte_points 90
      total_oi := total_oi }

/-! ## RetryWrapper (`_fetch_symbol_iv_terms_with_retry`, lines 276-297) -/

/-- Embedding of the retry loop from a given `attempt` onward: `op attempt`
models the try of `_fetch_symbol_iv_terms` on that attempt.  Also returns
the list of back-off sleeps (`min(30.0, 2 ** attempt)` seconds) performed
between attempts. -/
def retryFrom {ε α : Type} (op : ℕ → Except ε α) (max_retries : ℕ) (attempt : ℕ) :
    Except ε α × List ℚ :=
  match op attempt with
  | .ok a => (.ok a, [])
  | .error e =>
    if attempt < max_retries then
      let r := retryFrom op max_retries (attempt + 1)
      (r.1, min 30 ((2 : ℚ) ^ attempt) :: r.2)
    else
      (.error e, [])
termination_by max_retries - attempt
decreasing_by omega

/-- Embedding of `FutuConnector._fetch_symbol_iv_terms_with_retry`
(`for attempt in range(max_retries + 1)` starting at attempt 0). -/
def fetch_symbol_iv_terms_with_retry {ε α : Type} (op : ℕ → Except ε α)
    (max_retries : ℕ) : Except ε α × List ℚ :=
  retryFrom op max_retries 0

/-! ## Batch fetch (`fetch_iv_terms`, futu_connector.py lines 222-274) -/

/-- Embedding of `FutuConnector.fetch_iv_terms` downstream of the retry
wrapper: `fetchOne` is the per-symbol retried fetch.  The loop body
performs `results[symbol] = result` on success and, when the per-symbol
fetch raises, catches the exception at the batch level and performs
`results[symbol] = IVTermResult()` before continuing — dict assignment is
`dictInsert` (insert-or-overwrite), so a duplicated input symbol keeps a
single entry, as in CPython. -/
def fetch_iv_terms (fetchOne : String → Except String IVTermResult)
    (symbols : List String) : List (String × IVTermResult) :=
  symbols.foldl
    (fun results symbol =>
      dictInsert results symbol
        (match fetchOne symbol with
         | .ok r => r
         | .error _ => IVTermResult.empty))
    []

/-! ## OIDeltaCache (`batch_compute_delta_oi`, futu_connector.py lines 575-644)

Calendar dates are day numbers (`ℤ`); the source's `'YYYY-MM-DD'` string
keys compare lexicographically, which on ISO dates is the date order. -/

/-- The cache file contents: symbol → (date → OI). -/
abbrev OICache := List (String × List (ℤ × ℤ))

/-- The prior-OI scan `for days_ago in range(1, 8)` (1..7 days back, first
match wins). -/
def findPriorOI (symbol_cache : List (ℤ × ℤ)) (today : ℤ) : Option ℤ :=
  (List.range 7).findSome? (fun i => symbol_cache.lookup (today - ((i : ℤ) + 1)))

/-- Embedding of `FutuConnector.batch_compute_delta_oi` with the cache store
passed explicitly (the source loads it from, and saves it to, the
lock-guarded JSON file).  `today` is the current day number.  Returns the
updated cache and the per-symbol `(current_oi, delta_oi)` results in input
order. -/
def batch_compute_delta_oi (cache0 : OICache) (today : ℤ)
    (symbol_to_oi : List (String × Option ℤ)) :
    OICache × List (String × (Option ℤ × Option ℤ)) :=
  let cutoff := today - 7
  symbol_to_oi.foldl
    (fun (acc : OICache × List (String × (Option ℤ × Option ℤ))) p =>
      match p.2 with
      | none => (acc.1, acc.2 ++ [(p.1, (none, none))])
      | some current_oi =>
        let symbol_cache := ((acc.1.lookup p.1).getD [])
        let yesterday_oi := findPriorOI symbol_cache today
        let delta_oi := yesterday_oi.map (fun y => current_oi - y)
        let updated := dictInsert symbol_cache today current_oi
        let pruned := updated.filter (fun q => cutoff ≤ q.1)
        (dictInsert acc.1 p.1 pruned,
         acc.2 ++ [(p.1, (some current_oi, delta_oi))]))
    (cache0, [])

/-! ## Theorems -/

/-- C8: calling `connect()` on an already-connected connection manager is
idempotent: `_connect_impl` returns `True` without re-dialing the vendor
(zero dial attempts) and leaves the connection state unchanged. -/
theorem connect_impl_idempotent (s : IBKRConnState) (dial_ok : Bool)
    (h : s.already_connected = true) :
    connect_impl s dial_ok = (s, true, 0) := by
  simp [connect_impl, h]

/-- Witness for C8: a concrete already-connected state. -/
theorem connect_impl_idempotent_witness :
    connect_impl ⟨true, some ⟨true⟩⟩ false = (⟨true, some ⟨true⟩⟩, true, 0) :=
  connect_impl_idempotent ⟨true, some ⟨true⟩⟩ false (by decide)

/-- C5 counterexample: seed symbol `X` with OI 100000 on day 1 and query
with OI 105000 on day 2 (as the claim's scenario does); the day-2 call
writes 105000 under day 2, so a day-9 query finds that entry exactly 7 days
back (the scan covers 1..7 days) and returns a non-null delta
`106000 - 105000 = 1000`, not `(currentOI, null)` as claimed. -/
theorem oi_delta_day9_counterexample :
    (batch_compute_delta_oi
      (batch_compute_delta_oi
        (batch_compute_delta_oi [] 1 [("X", some 100000)]).1
        2 [("X", some 105000)]).1
      9 [("X", some 106000)]).2 = [("X", (some 106000, some 1000))]
    ∧ (batch_compute_delta_oi
      (batch_compute_delta_oi
        (batch_compute_delta_oi [] 1 [("X", some 100000)]).1
        2 [("X", some 105000)]).1
      9 [("X", some 106000)]).2 ≠ [("X", (some 106000, none))] := by
  constructor
  · decide
  · decide

/-- C5 amended: seeding `X` with 100000 on day 1 and querying with 105000
on day 2 yields `(105000, 5000)`; querying again on day 9 finds the day-2
entry (7 days back is still inside the 1..7-day scan), yields
`(currentOI, currentOI - 105000)`, and evicts the day-1 entry, which is
older than the 7-day cutoff; a null delta requires the most recent entry to
be more than 7 days back, e.g. a day-10 query yields `(currentOI, null)`
and evicts both old entries. -/
theorem oi_delta_scenario_amended :
    (batch_compute_delta_oi [] 1 [("X", some 100000)]).2
      = [("X", (some 100000, none))]
    ∧ (batch_compute_delta_oi
        (batch_compute_delta_oi [] 1 [("X", some 100000)]).1
        2 [("X", some 105000)]).2 = [("X", (some 105000, some 5000))]
    ∧ (batch_compute_delta_oi
        (batch_compute_delta_oi
          (batch_compute_delta_oi [] 1 [("X", some 100000)]).1
          2 [("X", some 105000)]).1
        9 [("X", some 106000)]).2 = [("X", (some 106000, some 1000))]
    ∧ ((batch_compute_delta_oi
        (batch_compute_delta_oi
          (batch_compute_delta_oi [] 1 [("X", some 100000)]).1
          2 [("X", some 105000)]).1
        9 [("X", some 106000)]).1.lookup "X" = some [(2, 105000), (9, 106000)])
    ∧ (batch_compute_delta_oi
        (batch_compute_delta_oi
          (batch_compute_delta_oi [] 1 [("X", some 100000)]).1
          2 [("X", some 105000)]).1
        10 [("X", some 106000)]).2 = [("X", (some 106000, none))] := by
  refine ⟨by decide, by decide, by decide, by decide, by decide⟩

/-- C9 counterexample: a concrete lock-respecting interleaving of two
`batch_compute_delta_oi` callers in which caller 1's cache write lands
between caller 0's cache read and caller 0's cache write — the lock is not
held around the full load-modify-save cycle, so the claimed atomicity
fails. -/
theorem oi_cache_lock_counterexample :
    isInterleaving (batch_lock_trace 0) (batch_lock_trace 1) lostUpdateSchedule = true
    ∧ lockCheck none lostUpdateSchedule = true
    ∧ lostUpdateSchedule.indexOf (CacheEv.read 0)
        < lostUpdateSchedule.indexOf (CacheEv.write 1)
    ∧ lostUpdateSchedule.indexOf (CacheEv.write 1)
        < lostUpdateSchedule.indexOf (CacheEv.write 0) := by
  refine ⟨by decide, by decide, by decide, by decide⟩

/-- C9 amended: each load and each save of the OI cache acquires the
process-wide lock for that single file operation only (each caller's trace
is valid for a single mutual-exclusion lock with reads and writes performed
while holding it), but the lock is released between the load and the save,
so there is a valid interleaving of two concurrent callers in which one
caller's write lands between the other caller's read and write (a lost
update). -/
theorem oi_cache_lock_amended :
    lockCheck none (batch_lock_trace 0) = true
    ∧ lockCheck none (batch_lock_trace 1) = true
    ∧ ∃ s : List CacheEv,
        isInterleaving (batch_lock_trace 0) (batch_lock_trace 1) s = true
        ∧ lockCheck none s = true
        ∧ s.indexOf (CacheEv.read 0) < s.indexOf (CacheEv.write 1)
        ∧ s.indexOf (CacheEv.write 1) < s.indexOf (CacheEv.write 0) := by
  refine ⟨by decide, by decide, lostUpdateSchedule, by decide, by decide, by decide, by decide⟩

/-- Helper for C4: peeling the first back-off sleep from the sleep
schedule. -/
theorem retry_sleeps_shift (a j : ℕ) :
    (List.range (j + 1)).map (fun i => min 30 ((2 : ℚ) ^ (a + i)))
      = min 30 ((2 : ℚ) ^ a)
        :: (List.range j).map (fun i => min 30 ((2 : ℚ) ^ (a + 1 + i))) := by
  rw [List.range_succ_eq_map]
  simp only [List.map_cons, List.map_map, Nat.add_zero]
  congr 1
  refine List.map_congr_left (fun i _ => ?_)
  simp only [Function.comp_apply]
  rw [show a + Nat.succ i = a + 1 + i by omega]

/-- Helper for C4: behaviour of the retry loop from a given attempt when
the operation fails `j` times and then succeeds. -/
theorem retryFrom_success {ε α : Type} (op : ℕ → Except ε α) (mr : ℕ) :
    ∀ (j attempt : ℕ) (v : α), attempt + j ≤ mr →
    (∀ i, i < j → ∃ e, op (attempt + i) = .error e) →
    op (attempt + j) = .ok v →
    retryFrom op mr attempt =
      (.ok v, (List.range j).map (fun i => min 30 ((2 : ℚ) ^ (attempt + i)))) := by
  intro j
  induction j with
  | zero =>
    intro attempt v _ _ hok
    rw [retryFrom]
    simp only [Nat.add_zero] at hok
    rw [hok]
    simp
  | succ j ih =>
    intro attempt v hle herr hok
    obtain ⟨e, he⟩ := herr 0 (Nat.succ_pos j)
    rw [retryFrom]
    rw [Nat.add_zero] at he
    rw [he]
    have hlt : attempt < mr := by omega
    simp only [hlt, if_pos]
    have := ih (attempt + 1) v (by omega)
      (fun i hi => by
        obtain ⟨e', he'⟩ := herr (i + 1) (by omega)
        exact ⟨e', by rw [show attempt + 1 + i = attempt + (i + 1) by omega]; exact he'⟩)
      (by rw [show attempt + 1 + j = attempt + (j + 1) by omega]; exact hok)
    rw [this, retry_sleeps_shift]

/-- Helper for C4: behaviour of the retry loop when every remaining attempt
fails; the last attempt's error is re-raised. -/
theorem retryFrom_failure {ε α : Type} (op : ℕ → Except ε α) (mr : ℕ) :
    ∀ (k attempt : ℕ), attempt + k = mr →
    (∀ i, attempt ≤ i → i ≤ mr → ∃ e, op i = .error e) →
    ∃ e, op mr = .error e ∧
      retryFrom op mr attempt =
        (.error e, (List.range k).map (fun i => min 30 ((2 : ℚ) ^ (attempt + i)))) := by
  intro k
  induction k with
  | zero =>
    intro attempt hk herr
    obtain ⟨e, he⟩ := herr attempt le_rfl (by omega)
    refine ⟨e, by rw [← hk, Nat.add_zero]; exact he, ?_⟩
    rw [retryFrom]
    have ha : attempt = mr := by omega
    rw [ha] at he ⊢
    rw [he]
    simp
  | succ k ih =>
    intro attempt hk herr
    obtain ⟨e0, he0⟩ := herr attempt le_rfl (by omega)
    obtain ⟨e, hemr, hrec⟩ := ih (attempt + 1) (by omega)
      (fun i hi hi2 => herr i (by omega) hi2)
    refine ⟨e, hemr, ?_⟩
    rw [retryFrom, he0]
    have hlt : attempt < mr := by omega
    simp only [hlt, if_pos]
    rw [hrec, retry_sleeps_shift]

/-- C4: the per-symbol retry wrapper with budget `max_retries`: if the
wrapped fetch raises on exactly `k < max_retries + 1` attempts and then
succeeds, the success value is returned, with a sleep of
`min(30, 2 ^ attempt)` seconds between consecutive attempts; if every one
of the `max_retries + 1` attempts raises, the final attempt's exception is
re-raised to the caller (after `max_retries` back-off sleeps). -/
theorem fetch_retry_semantics :
    (∀ (ε α : Type) (op : ℕ → Except ε α) (max_retries k : ℕ) (v : α),
      k ≤ max_retries →
      (∀ i, i < k → ∃ e, op i = .error e) →
      op k = .ok v →
      fetch_symbol_iv_terms_with_retry op max_retries =
        (.ok v, (List.range k).map (fun i => min 30 ((2 : ℚ) ^ i))))
    ∧ (∀ (ε α : Type) (op : ℕ → Except ε α) (max_retries : ℕ),
      (∀ i, i ≤ max_retries → ∃ e, op i = .error e) →
      ∃ e, op max_retries = .error e ∧
        fetch_symbol_iv_terms_with_retry op max_retries =
          (.error e, (List.range max_retries).map (fun i => min 30 ((2 : ℚ) ^ i)))) := by
  constructor
  · intro ε α op mr k v hk herr hok
    have := retryFrom_success op mr k 0 v (by omega)
      (fun i hi => by simpa using herr i hi) (by simpa using hok)
    simpa [fetch_symbol_iv_terms_with_retry] using this
  · intro ε α op mr herr
    obtain ⟨e, hemr, hrun⟩ := retryFrom_failure op mr mr 0 (by omega)
      (fun i _ hi2 => herr i hi2)
    exact ⟨e, hemr, by simpa [fetch_symbol_iv_terms_with_retry] using hrun⟩

/-- Witness for C4: an operation failing once then succeeding returns the
success value with one 1-second back-off; an always-failing operation with
budget 1 re-raises its final error after one back-off. -/
theorem fetch_retry_semantics_witness :
    fetch_symbol_iv_terms_with_retry
        (fun i => if i = 0 then (Except.error "boom") else (Except.ok (42 : ℤ))) 2 =
      (Except.ok (42 : ℤ), [1])
    ∧ ∃ e, (fun _ : ℕ => (Except.error "down" : Except String ℤ)) 1 = Except.error e
        ∧ fetch_symbol_iv_terms_with_retry
            (fun _ : ℕ => (Except.error "down" : Except String ℤ)) 1 =
          (Except.error e, [1]) := by
  constructor
  · have := fetch_retry_semantics.1 String ℤ
      (fun i => if i = 0 then (Except.error "boom") else (Except.ok (42 : ℤ))) 2 1 42
      (by omega)
      (fun i hi => ⟨"boom", by simp [show i = 0 by omega]⟩)
      (by simp)
    simpa using this
  · have := fetch_retry_semantics.2 String ℤ
      (fun _ : ℕ => (Except.error "down" : Except String ℤ)) 1
      (fun i _ => ⟨"down", rfl⟩)
    simpa using this

/-- Helper for C3: overwriting every entry under key `k` leaves lookups of
other keys unchanged. -/
theorem lookup_map_overwrite {κ α : Type} [DecidableEq κ] [BEq κ] [LawfulBEq κ]
    (k kq : κ) (v : α) (hne : kq ≠ k) :
    ∀ m : List (κ × α),
    List.lookup kq (m.map (fun p => if p.1 = k then (k, v) else p))
      = List.lookup kq m := by
  intro m
  induction m with
  | nil => rfl
  | cons p m ih =>
    obtain ⟨pk, pv⟩ := p
    simp only [List.map_cons]
    by_cases hp : pk = k
    · simp only [hp, if_pos rfl]
      rw [List.lookup_cons, List.lookup_cons]
      rw [beq_eq_false_iff_ne.mpr hne, beq_eq_false_iff_ne.mpr (hp ▸ hne)]
      exact ih
    · simp only [if_neg hp]
      rw [List.lookup_cons, List.lookup_cons]
      cases hbeq : kq == pk with
      | true => rfl
      | false => exact ih

/-- Helper for C3: dict assignment commutes with a non-matching head
entry. -/
theorem dictInsert_cons_ne {κ α : Type} [DecidableEq κ] (p : κ × α)
    (m : List (κ × α)) (k : κ) (v : α) (hp : p.1 ≠ k) :
    dictInsert (p :: m) k v = p :: dictInsert m k v := by
  unfold dictInsert
  rw [List.any_cons]
  have hfp : (decide (p.1 = k)) = false := decide_eq_false hp
  rw [hfp, Bool.false_or]
  by_cases hany : m.any (fun q => decide (q.1 = k)) = true
  · rw [if_pos hany, if_pos hany, List.map_cons, if_neg hp]
  · rw [if_neg hany, if_neg hany, List.cons_append]

/-- Helper for C3: full characterisation of lookups after a dict
assignment — the assigned key maps to the new value, every other key is
untouched. -/
theorem lookup_dictInsert {κ α : Type} [DecidableEq κ] [BEq κ] [LawfulBEq κ] :
    ∀ (m : List (κ × α)) (k kq : κ) (v : α),
    (dictInsert m k v).lookup kq = if kq = k then some v else m.lookup kq := by
  intro m
  induction m with
  | nil =>
    intro k kq v
    show List.lookup kq [(k, v)] = _
    rw [List.lookup_cons]
    by_cases h : kq = k
    · rw [if_pos h, beq_iff_eq.mpr h]
    · rw [if_neg h, beq_eq_false_iff_ne.mpr h]
  | cons p m ih =>
    intro k kq v
    obtain ⟨pk, pv⟩ := p
    by_cases hp : pk = k
    · subst hp
      have hany : ((pk, pv) :: m).any (fun q => decide (q.1 = pk)) = true := by
        rw [List.any_cons]
        simp
      unfold dictInsert
      rw [if_pos hany, List.map_cons]
      have hhead : (if ((pk, pv) : κ × α).1 = pk then (pk, v) else (pk, pv)) = (pk, v) := by
        simp
      rw [hhead]
      by_cases hq : kq = pk
      · rw [if_pos hq, List.lookup_cons, beq_iff_eq.mpr hq]
      · rw [if_neg hq, List.lookup_cons, beq_eq_false_iff_ne.mpr hq]
        rw [lookup_map_overwrite pk kq v hq m]
        rw [List.lookup_cons, beq_eq_false_iff_ne.mpr hq]
    · rw [dictInsert_cons_ne (pk, pv) m k v hp]
      rw [List.lookup_cons, List.lookup_cons]
      cases hbeq : kq == pk with
      | true =>
        have hqp : kq = pk := beq_iff_eq.mp hbeq
        rw [if_neg (by rw [hqp]; exact hp)]
      | false => rw [ih k kq v]

/-- Helper for C3: dict assignment adds the key only if absent, so a
no-duplicate key set stays duplicate-free. -/
theorem dictInsert_keys_nodup {κ α : Type} [DecidableEq κ]
    (m : List (κ × α)) (k : κ) (v : α) (h : (m.map Prod.fst).Nodup) :
    ((dictInsert m k v).map Prod.fst).Nodup := by
  unfold dictInsert
  by_cases hany : m.any (fun q => decide (q.1 = k)) = true
  · rw [if_pos hany, List.map_map]
    have : (Prod.fst ∘ fun p : κ × α => if p.1 = k then (k, v) else p) = Prod.fst := by
      funext p
      by_cases hp : p.1 = k
      · simp [hp]
      · simp [hp]
    rw [this]
    exact h
  · rw [if_neg hany, List.map_append]
    rw [List.nodup_append]
    refine ⟨h, by simp, ?_⟩
    intro a ha hsing
    have ha' : a = k := by simpa using hsing
    have : ∀ q ∈ m, ¬ q.1 = k := by
      intro q hq
      by_contra hqk
      exact hany (List.any_eq_true.mpr ⟨q, hq, by simpa using hqk⟩)
    obtain ⟨q, hq, hqa⟩ := List.mem_map.mp ha
    exact this q hq (by rw [hqa, ha'])

/-- Helper for C3: lookup characterisation of the whole batch loop from an
arbitrary accumulated results dict. -/
theorem fetch_iv_terms_foldl_lookup
    (fetchOne : String → Except String IVTermResult) :
    ∀ (symbols : List String) (acc : List (String × IVTermResult)) (s : String),
    (symbols.foldl
      (fun results symbol =>
        dictInsert results symbol
          (match fetchOne symbol with
           | .ok r => r
           | .error _ => IVTermResult.empty)) acc).lookup s
      = if s ∈ symbols then
          some (match fetchOne s with
            | .ok r => r
            | .error _ => IVTermResult.empty)
        else acc.lookup s := by
  intro symbols
  induction symbols with
  | nil => intro acc s; simp
  | cons sym rest ih =>
    intro acc s
    rw [List.foldl_cons, ih]
    by_cases hr : s ∈ rest
    · rw [if_pos hr, if_pos (List.mem_cons_of_mem _ hr)]
    · rw [if_neg hr, lookup_dictInsert]
      by_cases hs : s = sym
      · rw [if_pos hs, if_pos (by rw [hs]; exact List.mem_cons_self _ _), hs]
      · rw [if_neg hs, if_neg (by
          intro hmem
          rcases List.mem_cons.mp hmem with h | h
          · exact hs h
          · exact hr h)]

/-- Helper for C3: the batch loop never creates a duplicate key. -/
theorem fetch_iv_terms_foldl_nodup
    (fetchOne : String → Except String IVTermResult) :
    ∀ (symbols : List String) (acc : List (String × IVTermResult)),
    (acc.map Prod.fst).Nodup →
    ((symbols.foldl
      (fun results symbol =>
        dictInsert results symbol
          (match fetchOne symbol with
           | .ok r => r
           | .error _ => IVTermResult.empty)) acc).map Prod.fst).Nodup := by
  intro symbols
  induction symbols with
  | nil => intro acc h; exact h
  | cons sym rest ih =>
    intro acc h
    rw [List.foldl_cons]
    exact ih _ (dictInsert_keys_nodup acc sym _ h)

/-- C3: the batch `fetch_iv_terms` returns a dict with exactly one entry
per input symbol — its key set has no duplicates, and looking up a symbol
yields `some` exactly for the input symbols, with a per-symbol success
recorded as its value and a per-symbol exception (after retries) caught
and recorded as the default `IVTermResult()` while the batch continues;
a symbol whose collector finds zero expirations produces `IVTermResult()`,
which is not `is_valid`. -/
theorem fetch_iv_terms_batch_safety :
    (∀ (fetchOne : String → Except String IVTermResult) (symbols : List String),
      ((fetch_iv_terms fetchOne symbols).map Prod.fst).Nodup)
    ∧ (∀ (fetchOne : String → Except String IVTermResult) (symbols : List String)
        (s : String),
      (fetch_iv_terms fetchOne symbols).lookup s
        = if s ∈ symbols then
            some (match fetchOne s with
              | .ok r => r
              | .error _ => IVTermResult.empty)
          else none)
    ∧ (∀ (fetchOne : String → Except String IVTermResult) (symbols : List String)
        (s : String) (e : String),
        s ∈ symbols → fetchOne s = .error e →
        (fetch_iv_terms fetchOne symbols).lookup s = some IVTermResult.empty)
    ∧ (∀ (snap_api : List String → ℤ × List Snapshot)
        (parse_date : String → Option ℤ) (today : ℤ),
        fetch_symbol_iv_terms [] snap_api parse_date today = IVTermResult.empty)
    ∧ IVTermResult.empty.is_valid = false := by
  refine ⟨?_, ?_, ?_, ?_, rfl⟩
  · intro fetchOne symbols
    exact fetch_iv_terms_foldl_nodup fetchOne symbols [] (by simp)
  · intro fetchOne symbols s
    rw [fetch_iv_terms, fetch_iv_terms_foldl_lookup fetchOne symbols [] s]
    rfl
  · intro fetchOne symbols s e hs herr
    rw [fetch_iv_terms, fetch_iv_terms_foldl_lookup fetchOne symbols [] s]
    rw [if_pos hs, herr]
  · intro snap_api parse_date today
    simp [fetch_symbol_iv_terms]

/-- Witness for C3: the end-to-end no-data scenario — a symbol whose
per-symbol fetch reports no data is present exactly once in the batch
output, mapped to the default invalid result. -/
theorem fetch_iv_terms_batch_safety_witness :
    ((fetch_iv_terms (fun _ => Except.error "fail") ["NO_OPTIONS"]).map Prod.fst).Nodup
    ∧ (fetch_iv_terms (fun _ => Except.error "fail") ["NO_OPTIONS"]).lookup "NO_OPTIONS"
        = some IVTermResult.empty
    ∧ IVTermResult.empty.is_valid = false := by
  refine ⟨fetch_iv_terms_batch_safety.1 _ _, ?_, fetch_iv_terms_batch_safety.2.2.2.2⟩
  exact fetch_iv_terms_batch_safety.2.2.1 (fun _ => Except.error "fail") ["NO_OPTIONS"]
    "NO_OPTIONS" "fail" (by simp) rfl

/-- Helper for C7: every chunk produced by the chunking loop has at most
400 codes. -/
theorem chunked400_length_le {α : Type} :
    ∀ (n : ℕ) (l : List α), l.length ≤ n → ∀ c ∈ chunked400 l, c.length ≤ 400 := by
  intro n
  induction n with
  | zero =>
    intro l hl c hc
    have : l = [] := List.length_eq_zero.mp (Nat.le_zero.mp hl)
    subst this
    simp [chunked400] at hc
  | succ n ih =>
    intro l hl c hc
    cases l with
    | nil => simp [chunked400] at hc
    | cons x xs =>
      rw [chunked400] at hc
      rcases List.mem_cons.mp hc with h | h
      · subst h
        simp
      · refine ih ((x :: xs).drop 400) ?_ c h
        simp only [List.length_drop, List.length_cons]
        simp only [List.length_cons] at hl
        omega

/-- Helper for C7: the chunks concatenate back to the full code list
(nothing is lost or duplicated by chunking). -/
theorem chunked400_flatten {α : Type} :
    ∀ (n : ℕ) (l : List α), l.length ≤ n → (chunked400 l).flatten = l := by
  intro n
  induction n with
  | zero =>
    intro l hl
    have : l = [] := List.length_eq_zero.mp (Nat.le_zero.mp hl)
    subst this
    simp [chunked400]
  | succ n ih =>
    intro l hl
    cases l with
    | nil => simp [chunked400]
    | cons x xs =>
      rw [chunked400, List.flatten_cons]
      have hd : ((x :: xs).drop 400).length ≤ n := by
        simp only [List.length_drop, List.length_cons]
        simp only [List.length_cons] at hl
        omega
      rw [ih _ hd]
      exact List.take_append_drop 400 (x :: xs)

/-- Helper for C7: folding the per-chunk merge (which skips chunks whose
return code is not `RET_OK`) equals folding the record-insert step over the
concatenated records of the successful chunks only. -/
theorem foldl_skip_merge (snap_api : List String → ℤ × List Snapshot) :
    ∀ (batches : List (List String)) (acc : List (String × Snapshot)),
    batches.foldl (fun acc batch =>
        let rd := snap_api batch
        if rd.1 = RET_OK then rd.2.foldl insertSnapshotRecord acc else acc) acc
      = (okRecords snap_api batches).foldl insertSnapshotRecord acc := by
  intro batches
  induction batches with
  | nil => intro acc; simp [okRecords]
  | cons b bs ih =>
    intro acc
    simp only [List.foldl_cons, okRecords, List.map_cons, List.flatten_cons,
      List.foldl_append]
    by_cases h : (snap_api b).1 = RET_OK
    · simp only [h, if_true, if_pos]
      exact ih _
    · simp only [h, if_false, if_neg, List.foldl_nil]
      exact ih acc

/-- C7: `_fetch_snapshot_map` splits the contract codes into chunks of at
most 400, issues exactly one (rate-limited) snapshot request per chunk —
the returned request list is exactly the chunking of the code list and
concatenates back to it — and merges into the result map exactly the
records of the chunks whose request succeeded: a failed chunk is skipped
while the partial results of the other chunks are still returned, and no
path raises. -/
theorem fetch_snapshot_map_chunking
    (snap_api : List String → ℤ × List Snapshot)
    (expirations : List (String × List OptionContract)) :
    (fetch_snapshot_map snap_api expirations).2
        = chunked400 (expirations.foldl
            (fun acc e => acc ++ e.2.map (fun c => c.code)) [])
    ∧ (∀ b ∈ (fetch_snapshot_map snap_api expirations).2, b.length ≤ 400)
    ∧ (fetch_snapshot_map snap_api expirations).2.flatten
        = expirations.foldl (fun acc e => acc ++ e.2.map (fun c => c.code)) []
    ∧ (fetch_snapshot_map snap_api expirations).1
        = (okRecords snap_api (fetch_snapshot_map snap_api expirations).2).foldl
            insertSnapshotRecord [] := by
  refine ⟨rfl, ?_, ?_, ?_⟩
  · intro b hb
    exact chunked400_length_le _ _ le_rfl b hb
  · exact chunked400_flatten _ _ le_rfl
  · exact foldl_skip_merge snap_api _ []

/-- Witness for C7 at a concrete input: one expiration with one contract
produces a single one-element batch, merged into a one-entry map. -/
theorem fetch_snapshot_map_chunking_witness :
    (fetch_snapshot_map
        (fun _ => (0, [⟨some "US.A", none, none, none, some 5⟩]))
        [("2025-01-17", [⟨"US.A", OptionType.call⟩])]).2 = [["US.A"]]
    ∧ (["US.A"] : List String).length ≤ 400 := by
  have h := fetch_snapshot_map_chunking
    (fun _ => (0, [⟨some "US.A", none, none, none, some 5⟩]))
    [("2025-01-17", [⟨"US.A", OptionType.call⟩])]
  refine ⟨?_, ?_⟩
  · rw [h.1]
    simp [chunked400]
  · refine h.2.1 ["US.A"] ?_
    rw [h.1]
    simp [chunked400]

/-- Helper: the head of a `dropWhile` result falsifies the predicate. -/
theorem dropWhile_head_false {α : Type} (p : α → Bool) :
    ∀ (l : List α) (a : α) (t : List α), l.dropWhile p = a :: t → p a = false := by
  intro l
  induction l with
  | nil => intro a t h; simp [List.dropWhile] at h
  | cons x xs ih =>
    intro a t h
    rw [List.dropWhile_cons] at h
    by_cases hx : p x
    · rw [if_pos hx] at h
      exact ih a t h
    · rw [if_neg hx] at h
      cases h
      simpa using hx

/-- Helper: `getLast?` of a nonempty list is defined. -/
theorem getLast?_cons_isSome {α : Type} (q : α) (l : List α) :
    ((q :: l).getLast?).isSome = true := by
  induction l generalizing q with
  | nil => simp
  | cons r l ih =>
    rw [List.getLast?_cons_cons]
    exact ih r

/-- Helper: threading an accumulator through `getLast?` of a cons. -/
theorem getLast?_cons_or {α : Type} (p : α) (l : List α) (acc : Option α) :
    ((p :: l).getLast?).or acc = (l.getLast?).or (some p) := by
  cases l with
  | nil => simp
  | cons q l =>
    rw [List.getLast?_cons_cons]
    obtain ⟨x, hx⟩ := Option.isSome_iff_exists.mp (getLast?_cons_isSome q l)
    rw [hx]
    simp

/-- Helper: the scan loop of `_interpolate_iv` skips a prefix of points
strictly below the target, remembering the last of them as `lower`. -/
theorem scan_points_append (target : ℤ) :
    ∀ (A B : List (ℤ × ℚ)) (acc : Option (ℤ × ℚ)),
    (∀ p ∈ A, p.1 < target) →
    scan_points target (A ++ B) acc = scan_points target B ((A.getLast?).or acc) := by
  intro A
  induction A with
  | nil => intro B acc _; simp
  | cons p A ih =>
    intro B acc h
    obtain ⟨dte, iv⟩ := p
    have hp : dte < target := h (dte, iv) (List.mem_cons_self _ _)
    have hne : dte ≠ target := ne_of_lt hp
    simp only [List.cons_append, scan_points]
    rw [if_neg hne, if_pos hp]
    rw [List.append_eq]
    rw [ih B (some (dte, iv)) (fun q hq => h q (List.mem_cons_of_mem _ hq))]
    rw [getLast?_cons_or]

/-- Helper: where the `lower` side of a terminated scan can come from. -/
theorem scan_points_sides_lower (target : ℤ) :
    ∀ (l : List (ℤ × ℚ)) (acc : Option (ℤ × ℚ)) (lo up : Option (ℤ × ℚ)),
    scan_points target l acc = .sides lo up →
    lo = acc ∨ ∃ d iv, lo = some (d, iv) ∧ (d, iv) ∈ l ∧ d < target := by
  intro l
  induction l with
  | nil => intro acc lo up h; simp [scan_points] at h; exact Or.inl h.1.symm
  | cons p rest ih =>
    intro acc lo up h
    obtain ⟨dte, iv⟩ := p
    simp only [scan_points] at h
    by_cases h1 : dte = target
    · rw [if_pos h1] at h; cases h
    · rw [if_neg h1] at h
      by_cases h2 : dte < target
      · rw [if_pos h2] at h
        rcases ih (some (dte, iv)) lo up h with hacc | ⟨d, v, hlo, hmem, hd⟩
        · exact Or.inr ⟨dte, iv, hacc, List.mem_cons_self _ _, h2⟩
        · exact Or.inr ⟨d, v, hlo, List.mem_cons_of_mem _ hmem, hd⟩
      · rw [if_neg h2] at h
        cases h
        exact Or.inl rfl

/-- Helper: the `upper` side of a terminated scan, when present, is a point
strictly above the target. -/
theorem scan_points_sides_upper (target : ℤ) :
    ∀ (l : List (ℤ × ℚ)) (acc : Option (ℤ × ℚ)) (lo up : Option (ℤ × ℚ)),
    scan_points target l acc = .sides lo up →
    up = none ∨ ∃ d iv, up = some (d, iv) ∧ (d, iv) ∈ l ∧ target < d := by
  intro l
  induction l with
  | nil => intro acc lo up h; simp [scan_points] at h; exact Or.inl h.2.symm
  | cons p rest ih =>
    intro acc lo up h
    obtain ⟨dte, iv⟩ := p
    simp only [scan_points] at h
    by_cases h1 : dte = target
    · rw [if_pos h1] at h; cases h
    · rw [if_neg h1] at h
      by_cases h2 : dte < target
      · rw [if_pos h2] at h
        rcases ih (some (dte, iv)) lo up h with hup | ⟨d, v, hup, hmem, hd⟩
        · exact Or.inl hup
        · exact Or.inr ⟨d, v, hup, List.mem_cons_of_mem _ hmem, hd⟩
      · rw [if_neg h2] at h
        cases h
        have : target < dte := lt_of_le_of_ne (not_lt.mp h2) (Ne.symm h1)
        exact Or.inr ⟨dte, iv, rfl, List.mem_cons_self _ _, this⟩

/-- Helper: the scan only reports two empty sides on the empty list. -/
theorem scan_points_sides_none_none (target : ℤ) :
    ∀ (l : List (ℤ × ℚ)) (acc : Option (ℤ × ℚ)),
    scan_points target l acc = .sides none none → l = [] ∧ acc = none := by
  intro l
  induction l with
  | nil => intro acc h; simp [scan_points] at h; exact ⟨rfl, h⟩
  | cons p rest ih =>
    intro acc h
    obtain ⟨dte, iv⟩ := p
    simp only [scan_points] at h
    by_cases h1 : dte = target
    · rw [if_pos h1] at h; cases h
    · rw [if_neg h1] at h
      by_cases h2 : dte < target
      · rw [if_pos h2] at h
        obtain ⟨-, habs⟩ := ih (some (dte, iv)) h
        cases habs
      · rw [if_neg h2] at h
        cases h

/-- Helper: unfolding `_interpolate_iv` when the scan hits an exact DTE
match. -/
theorem interpolate_iv_of_scan_exact (p q : ℤ × ℚ) (rest : List (ℤ × ℚ))
    (target : ℤ) (iv : ℚ)
    (h : scan_points target (p :: q :: rest) none = .exact iv) :
    interpolate_iv (p :: q :: rest) target = some (iv : ℝ) := by
  simp only [interpolate_iv, h]

/-- Helper: unfolding `_interpolate_iv` when only a lower point exists. -/
theorem interpolate_iv_of_scan_lower (p q : ℤ × ℚ) (rest : List (ℤ × ℚ))
    (target d1 : ℤ) (iv1 : ℚ)
    (h : scan_points target (p :: q :: rest) none = .sides (some (d1, iv1)) none) :
    interpolate_iv (p :: q :: rest) target = some (iv1 : ℝ) := by
  simp only [interpolate_iv, h]

/-- Helper: unfolding `_interpolate_iv` when only an upper point exists. -/
theorem interpolate_iv_of_scan_upper (p q : ℤ × ℚ) (rest : List (ℤ × ℚ))
    (target d2 : ℤ) (iv2 : ℚ)
    (h : scan_points target (p :: q :: rest) none = .sides none (some (d2, iv2))) :
    interpolate_iv (p :: q :: rest) target = some (iv2 : ℝ) := by
  simp only [interpolate_iv, h]

/-- Helper: unfolding `_interpolate_iv` on the two-sided branch with the
(dead) equal-DTE guard not taken. -/
theorem interpolate_iv_of_scan_both (p q : ℤ × ℚ) (rest : List (ℤ × ℚ))
    (target d1 d2 : ℤ) (iv1 iv2 : ℚ)
    (h : scan_points target (p :: q :: rest) none
        = .sides (some (d1, iv1)) (some (d2, iv2)))
    (hne : d2 ≠ d1) :
    interpolate_iv (p :: q :: rest) target
      = some (Real.sqrt
          ((((iv1 / 100) ^ 2
            + ((iv2 / 100) ^ 2 - (iv1 / 100) ^ 2)
              * (((target - d1 : ℤ) : ℚ) / ((d2 - d1 : ℤ) : ℚ))) : ℚ) : ℝ) * 100) := by
  simp only [interpolate_iv, h]
  rw [if_neg hne]

/-- C10: `_interpolate_iv` is total — it returns a value (no exception) on
every nonempty list — and on the two-sided interpolation branch the
bracketing points always satisfy `d1 < target < d2`, so the divisor
`d2 - d1` of the interpolation weight is never zero (the `d2 == d1` guard
in the source, which would return the lower IV, is unreachable dead code). -/
theorem interpolate_iv_total_no_div_zero :
    (∀ (points : List (ℤ × ℚ)) (target : ℤ), points ≠ [] →
      (interpolate_iv points target).isSome = true)
    ∧ (∀ (points : List (ℤ × ℚ)) (target d1 d2 : ℤ) (iv1 iv2 : ℚ),
      scan_points target points none = .sides (some (d1, iv1)) (some (d2, iv2)) →
      d1 < target ∧ target < d2 ∧ ((d2 : ℝ) - (d1 : ℝ)) ≠ 0) := by
  constructor
  · intro points target hne
    match points with
    | [] => exact absurd rfl hne
    | [(d, iv)] => simp [interpolate_iv]
    | p :: q :: rest =>
      cases h : scan_points target (p :: q :: rest) none with
      | exact iv =>
        rw [interpolate_iv_of_scan_exact p q rest target iv h]
        rfl
      | sides lo up =>
        match lo, up with
        | none, none =>
          obtain ⟨habs, -⟩ := scan_points_sides_none_none target (p :: q :: rest) none h
          cases habs
        | some (d1, iv1), none =>
          rw [interpolate_iv_of_scan_lower p q rest target d1 iv1 h]
          rfl
        | none, some (d2, iv2) =>
          rw [interpolate_iv_of_scan_upper p q rest target d2 iv2 h]
          rfl
        | some (d1, iv1), some (d2, iv2) =>
          by_cases hd : d2 = d1
          · simp [interpolate_iv, h, hd]
          · rw [interpolate_iv_of_scan_both p q rest target d1 d2 iv1 iv2 h hd]
            rfl
  · intro points target d1 d2 iv1 iv2 h
    have hlo := scan_points_sides_lower target points none _ _ h
    have hup := scan_points_sides_upper target points none _ _ h
    have h1 : d1 < target := by
      rcases hlo with habs | ⟨d, v, heq, -, hd⟩
      · cases habs
      · have hpair : (d1, iv1) = (d, v) := Option.some.inj heq
        obtain ⟨h1eq, -⟩ := Prod.mk.inj hpair
        rw [h1eq]
        exact hd
    have h2 : target < d2 := by
      rcases hup with habs | ⟨d, v, heq, -, hd⟩
      · cases habs
      · have hpair : (d2, iv2) = (d, v) := Option.some.inj heq
        obtain ⟨h1eq, -⟩ := Prod.mk.inj hpair
        rw [h1eq]
        exact hd
    refine ⟨h1, h2, ?_⟩
    have : (d1 : ℝ) < (d2 : ℝ) := by exact_mod_cast lt_trans h1 h2
    exact sub_ne_zero.mpr (ne_of_gt this)

/-- Witness for C10: totality on a concrete one-point list, and the
divisor facts at the concrete bracketing scan of the worked example. -/
theorem interpolate_iv_total_no_div_zero_witness :
    (interpolate_iv [(1, 10)] 5).isSome = true
    ∧ ((5 : ℤ) < 30 ∧ (30 : ℤ) < 40 ∧ ((40 : ℤ) : ℝ) - ((5 : ℤ) : ℝ) ≠ 0) := by
  constructor
  · exact interpolate_iv_total_no_div_zero.1 [(1, 10)] 5 (by simp)
  · exact interpolate_iv_total_no_div_zero.2 [(5, 20), (40, 25)] 30 5 40 20 25 (by decide)

/-- C6: `_interpolate_iv` performs no extrapolation outside the available
range: an empty list yields `None`; a single point is returned verbatim
regardless of target; when the target lies strictly below every DTE the
first (nearest) point's IV is returned unchanged; and when it lies strictly
above every DTE the last (nearest) point's IV is returned unchanged. -/
theorem interpolate_iv_no_extrapolation :
    (∀ target : ℤ, interpolate_iv [] target = none)
    ∧ (∀ (d : ℤ) (iv : ℚ) (target : ℤ), interpolate_iv [(d, iv)] target = some (iv : ℝ))
    ∧ (∀ (p : ℤ × ℚ) (ps : List (ℤ × ℚ)) (target : ℤ),
        (p :: ps).Pairwise (fun a b => a.1 < b.1) →
        (∀ q ∈ p :: ps, target < q.1) →
        interpolate_iv (p :: ps) target = some (p.2 : ℝ))
    ∧ (∀ (points : List (ℤ × ℚ)) (target : ℤ) (p : ℤ × ℚ),
        points.Pairwise (fun a b => a.1 < b.1) →
        points.getLast? = some p →
        (∀ q ∈ points, q.1 < target) →
        interpolate_iv points target = some (p.2 : ℝ)) := by
  refine ⟨fun _ => rfl, fun d iv target => by simp [interpolate_iv], ?_, ?_⟩
  · intro p ps target _ hgt
    obtain ⟨dte, iv⟩ := p
    cases ps with
    | nil => simp [interpolate_iv]
    | cons q rest =>
      have hdgt : target < dte := hgt (dte, iv) (List.mem_cons_self _ _)
      refine interpolate_iv_of_scan_upper (dte, iv) q rest target dte iv ?_
      simp only [scan_points]
      rw [if_neg (ne_of_gt hdgt), if_neg (not_lt.mpr (le_of_lt hdgt))]
  · intro points target p _ hlast hlt
    have hscan : scan_points target points none = .sides (some p) none := by
      have := scan_points_append target points [] none hlt
      rw [List.append_nil] at this
      rw [this, hlast]
      rfl
    cases points with
    | nil => cases hlast
    | cons x ps =>
      cases ps with
      | nil =>
        have : p = x := by
          simp only [List.getLast?_singleton] at hlast
          exact (Option.some.inj hlast).symm
        subst this
        obtain ⟨d, iv⟩ := p
        simp [interpolate_iv]
      | cons y rest =>
        obtain ⟨d1, iv1⟩ := p
        exact interpolate_iv_of_scan_lower x y rest target d1 iv1 hscan

/-- Witness for C6: concrete below-range and above-range inputs return the
nearest endpoint IV verbatim. -/
theorem interpolate_iv_no_extrapolation_witness :
    interpolate_iv [] 7 = none
    ∧ interpolate_iv [(10, 18)] 90 = some ((18 : ℚ) : ℝ)
    ∧ interpolate_iv [(30, 22), (60, 24)] 7 = some ((22 : ℚ) : ℝ)
    ∧ interpolate_iv [(30, 22), (60, 24)] 90 = some ((24 : ℚ) : ℝ) := by
  refine ⟨interpolate_iv_no_extrapolation.1 7,
    interpolate_iv_no_extrapolation.2.1 10 18 90, ?_, ?_⟩
  · exact interpolate_iv_no_extrapolation.2.2.1 (30, 22) [(60, 24)] 7
      (by simp) (by intro q hq; fin_cases hq <;> decide)
  · exact interpolate_iv_no_extrapolation.2.2.2 [(30, 22), (60, 24)] 90 (60, 24)
      (by simp) (by simp) (by intro q hq; fin_cases hq <;> decide)

/-- C2: `_interpolate_iv` on a sorted point list returns an exactly
matching point's IV; otherwise, when a nearest point below and a nearest
point above the target both exist, it interpolates in variance space:
`sqrt(var1 + (var2 - var1) * (target - dte1) / (dte2 - dte1)) * 100` with
`var_i = (iv_i / 100)^2`; in particular, for points `[(5, 20), (40, 25)]`
and target 30 the result is that closed form, which lies within 0.02 of
23.69. -/
theorem interpolate_iv_variance_formula :
    (∀ (points : List (ℤ × ℚ)) (target : ℤ) (iv : ℚ),
      points.Pairwise (fun a b => a.1 < b.1) →
      (target, iv) ∈ points →
      interpolate_iv points target = some (iv : ℝ))
    ∧ (∀ (points : List (ℤ × ℚ)) (target d1 d2 : ℤ) (iv1 iv2 : ℚ),
      points.Pairwise (fun a b => a.1 < b.1) →
      (d1, iv1) ∈ points → d1 < target →
      (∀ p ∈ points, p.1 < target → p.1 ≤ d1) →
      (d2, iv2) ∈ points → target < d2 →
      (∀ p ∈ points, target < p.1 → d2 ≤ p.1) →
      (∀ p ∈ points, p.1 ≠ target) →
      interpolate_iv points target
        = some (Real.sqrt
            (((iv1 : ℝ) / 100) ^ 2
              + (((iv2 : ℝ) / 100) ^ 2 - ((iv1 : ℝ) / 100) ^ 2)
                * (((target : ℝ) - (d1 : ℝ)) / ((d2 : ℝ) - (d1 : ℝ)))) * 100))
    ∧ (interpolate_iv [(5, 20), (40, 25)] 30
        = some (Real.sqrt
            (((20 : ℝ) / 100) ^ 2
              + (((25 : ℝ) / 100) ^ 2 - ((20 : ℝ) / 100) ^ 2)
                * (((30 : ℝ) - 5) / ((40 : ℝ) - 5))) * 100))
    ∧ (∃ r : ℝ, interpolate_iv [(5, 20), (40, 25)] 30 = some r
        ∧ |r - 2369 / 100| < 1 / 50) := by
  have hexact : ∀ (points : List (ℤ × ℚ)) (target : ℤ) (iv : ℚ),
      points.Pairwise (fun a b => a.1 < b.1) →
      (target, iv) ∈ points →
      interpolate_iv points target = some (iv : ℝ) := by
    intro points target iv hsort hmem
    obtain ⟨pre, post, hsplit⟩ := List.append_of_mem hmem
    have hpre : ∀ p ∈ pre, p.1 < target := by
      rw [hsplit] at hsort
      intro p hp
      exact (List.pairwise_append.mp hsort).2.2 p hp (target, iv)
        (List.mem_cons_self _ _)
    have hscan : scan_points target points none = .exact iv := by
      rw [hsplit, scan_points_append target pre ((target, iv) :: post) none hpre]
      simp [scan_points]
    cases points with
    | nil => cases hmem
    | cons x ps =>
      cases ps with
      | nil =>
        have hx : (target, iv) = x := by simpa using hmem
        rw [← hx]
        simp [interpolate_iv]
      | cons y rest => exact interpolate_iv_of_scan_exact x y rest target iv hscan
  have hbracket : ∀ (points : List (ℤ × ℚ)) (target d1 d2 : ℤ) (iv1 iv2 : ℚ),
      points.Pairwise (fun a b => a.1 < b.1) →
      (d1, iv1) ∈ points → d1 < target →
      (∀ p ∈ points, p.1 < target → p.1 ≤ d1) →
      (d2, iv2) ∈ points → target < d2 →
      (∀ p ∈ points, target < p.1 → d2 ≤ p.1) →
      (∀ p ∈ points, p.1 ≠ target) →
      interpolate_iv points target
        = some (Real.sqrt
            (((iv1 : ℝ) / 100) ^ 2
              + (((iv2 : ℝ) / 100) ^ 2 - ((iv1 : ℝ) / 100) ^ 2)
                * (((target : ℝ) - (d1 : ℝ)) / ((d2 : ℝ) - (d1 : ℝ)))) * 100) := by
    intro points target d1 d2 iv1 iv2 hsort h1mem h1lt h1max h2mem h2gt h2min hnex
    have hAD : points.takeWhile (fun p => decide (p.1 < target))
        ++ points.dropWhile (fun p => decide (p.1 < target)) = points :=
      List.takeWhile_append_dropWhile (fun p : ℤ × ℚ => decide (p.1 < target)) points
    set A := points.takeWhile (fun p => decide (p.1 < target)) with hAdef
    set D := points.dropWhile (fun p => decide (p.1 < target)) with hDdef
    have hAlt : ∀ p ∈ A, p.1 < target := by
      intro p hp
      have := List.mem_takeWhile_imp hp
      simpa using this
    have hDmem : ∀ p ∈ D, p ∈ points := by
      intro p hp
      exact (List.dropWhile_sublist _).subset hp
    have h2D : (d2, iv2) ∈ D := by
      have h2' : (d2, iv2) ∈ A ++ D := by rw [hAD]; exact h2mem
      rcases List.mem_append.mp h2' with h | h
      · exact absurd (hAlt _ h) (by simp; omega)
      · exact h
    cases hDshape : D with
    | nil => rw [hDshape] at h2D; cases h2D
    | cons dh D2 =>
    have hdh_false : ¬ (dh.1 < target) := by
      have := dropWhile_head_false (fun p : ℤ × ℚ => decide (p.1 < target))
        points dh D2 (by rw [← hDdef]; exact hDshape)
      simpa using this
    have hdh_mem : dh ∈ points := hDmem dh (by rw [hDshape]; exact List.mem_cons_self _ _)
    have hdh_gt : target < dh.1 :=
      lt_of_le_of_ne (not_lt.mp hdh_false) (Ne.symm (hnex dh hdh_mem))
    have hD_pw : D.Pairwise (fun a b : ℤ × ℚ => a.1 < b.1) :=
      hsort.sublist (List.dropWhile_sublist _)
    have hdh_eq : dh = (d2, iv2) := by
      rw [hDshape] at h2D
      rcases List.mem_cons.mp h2D with h | h
      · exact h.symm
      · exfalso
        have hlt2 : dh.1 < d2 := by
          rw [hDshape] at hD_pw
          exact (List.pairwise_cons.mp hD_pw).1 (d2, iv2) h
        have hle : d2 ≤ dh.1 := h2min dh hdh_mem hdh_gt
        omega
    have h1A : (d1, iv1) ∈ A := by
      have h1' : (d1, iv1) ∈ A ++ D := by rw [hAD]; exact h1mem
      rcases List.mem_append.mp h1' with h | h
      · exact h
      · exfalso
        rw [hDshape] at h
        rcases List.mem_cons.mp h with h | h
        · rw [hdh_eq] at h
          have hd12 := (Prod.mk.inj h).1
          omega
        · have hlt2 : dh.1 < d1 := by
            rw [hDshape] at hD_pw
            exact (List.pairwise_cons.mp hD_pw).1 (d1, iv1) h
          rw [hdh_eq] at hlt2
          simp only at hlt2
          omega
    have hAne : A ≠ [] := by
      intro h
      rw [h] at h1A
      cases h1A
    have hA_pw : A.Pairwise (fun a b : ℤ × ℚ => a.1 < b.1) :=
      hsort.sublist (List.takeWhile_sublist _)
    have hlast : A.getLast? = some (d1, iv1) := by
      have hlam : A.getLast hAne ∈ A := List.getLast_mem hAne
      have hlam_pts : A.getLast hAne ∈ points := by
        rw [← hAD]
        exact List.mem_append_left _ hlam
      have hled1 : (A.getLast hAne).1 ≤ d1 := h1max _ hlam_pts (hAlt _ hlam)
      have hdec : A.dropLast ++ [A.getLast hAne] = A := List.dropLast_append_getLast hAne
      have h1A' : (d1, iv1) ∈ A.dropLast ++ [A.getLast hAne] := by rw [hdec]; exact h1A
      have hApw' : (A.dropLast ++ [A.getLast hAne]).Pairwise
          (fun a b : ℤ × ℚ => a.1 < b.1) := by rw [hdec]; exact hA_pw
      rcases List.mem_append.mp h1A' with h | h
      · exfalso
        have : d1 < (A.getLast hAne).1 :=
          (List.pairwise_append.mp hApw').2.2 (d1, iv1) h (A.getLast hAne)
            (List.mem_singleton_self _)
        omega
      · have heq : (d1, iv1) = A.getLast hAne := by simpa using h
        rw [List.getLast?_eq_getLast A hAne, ← heq]
    have hscan : scan_points target points none
        = .sides (some (d1, iv1)) (some (d2, iv2)) := by
      conv_lhs => rw [← hAD]
      rw [scan_points_append target A D none hAlt, hlast, hDshape, hdh_eq]
      show scan_points target ((d2, iv2) :: D2) (some (d1, iv1))
        = ScanResult.sides (some (d1, iv1)) (some (d2, iv2))
      simp only [scan_points]
      rw [if_neg (ne_of_gt h2gt), if_neg (not_lt.mpr (le_of_lt h2gt))]
    have h2len : ∃ x y rest, points = x :: y :: rest := by
      cases hpts : points with
      | nil =>
        rw [hpts] at hAD
        rw [List.append_eq_nil] at hAD
        exact absurd hAD.1 hAne
      | cons x ps =>
        cases hps : ps with
        | nil =>
          exfalso
          rw [hpts, hps] at hAD h1mem h2mem
          have e1 : (d1, iv1) = x := by simpa using h1mem
          have e2 : (d2, iv2) = x := by simpa using h2mem
          rw [← e2] at e1
          have := (Prod.mk.inj e1).1
          omega
        | cons y rest => exact ⟨x, y, rest, rfl⟩
    obtain ⟨x, y, rest, hxy⟩ := h2len
    rw [hxy] at hscan ⊢
    rw [interpolate_iv_of_scan_both x y rest target d1 d2 iv1 iv2 hscan (by omega)]
    congr 1
    congr 1
    push_cast
    ring
  have hconc : interpolate_iv [(5, 20), (40, 25)] 30
      = some (Real.sqrt
          (((20 : ℝ) / 100) ^ 2
            + (((25 : ℝ) / 100) ^ 2 - ((20 : ℝ) / 100) ^ 2)
              * (((30 : ℝ) - 5) / ((40 : ℝ) - 5))) * 100) := by
    have hmax : ∀ p ∈ [((5 : ℤ), (20 : ℚ)), (40, 25)], p.1 < 30 → p.1 ≤ 5 := by
      intro p hp h
      simp only [List.mem_cons, List.not_mem_nil, or_false] at hp
      rcases hp with rfl | rfl
      · norm_num
      · norm_num at h
    have hmin : ∀ p ∈ [((5 : ℤ), (20 : ℚ)), (40, 25)], 30 < p.1 → 40 ≤ p.1 := by
      intro p hp h
      simp only [List.mem_cons, List.not_mem_nil, or_false] at hp
      rcases hp with rfl | rfl
      · norm_num at h
      · norm_num
    have hnex : ∀ p ∈ [((5 : ℤ), (20 : ℚ)), (40, 25)], p.1 ≠ 30 := by
      intro p hp
      simp only [List.mem_cons, List.not_mem_nil, or_false] at hp
      rcases hp with rfl | rfl <;> norm_num
    have := hbracket [(5, 20), (40, 25)] 30 5 40 20 25
      (by simp) (by simp) (by omega) hmax (by simp) (by omega) hmin hnex
    rw [this]
    norm_num
  refine ⟨hexact, hbracket, hconc, ?_⟩
  refine ⟨_, hconc, ?_⟩
  have hval : ((20 : ℝ) / 100) ^ 2
      + (((25 : ℝ) / 100) ^ 2 - ((20 : ℝ) / 100) ^ 2)
        * (((30 : ℝ) - 5) / ((40 : ℝ) - 5)) = 157 / 2800 := by norm_num
  rw [hval]
  have hX : (0 : ℝ) ≤ 157 / 2800 := by norm_num
  have hs := Real.sq_sqrt hX
  have hsnn := Real.sqrt_nonneg (157 / 2800 : ℝ)
  rw [abs_lt]
  constructor
  · nlinarith [hs, hsnn]
  · nlinarith [hs, hsnn]

/-- Witness for C2: the exact-match and bracketing parts applied at the
worked example `[(5, 20), (40, 25)]`, plus a point list containing the
target DTE. -/
theorem interpolate_iv_variance_formula_witness :
    interpolate_iv [(5, 20), (30, 21), (40, 25)] 30 = some ((21 : ℚ) : ℝ)
    ∧ interpolate_iv [(5, 20), (40, 25)] 30
        = some (Real.sqrt
            (((20 : ℝ) / 100) ^ 2
              + (((25 : ℝ) / 100) ^ 2 - ((20 : ℝ) / 100) ^ 2)
                * (((30 : ℝ) - 5) / ((40 : ℝ) - 5))) * 100) := by
  constructor
  · exact interpolate_iv_variance_formula.1 [(5, 20), (30, 21), (40, 25)] 30 21
      (by simp) (by simp)
  · exact interpolate_iv_variance_formula.2.2.1

/-- Helper for C1: `acquire` on the rate-limited path — after eviction the
deque is still at (or above) capacity, so the call sleeps
`period - (now - oldest) + 0.01` seconds and records the wake-up instant. -/
theorem acquire_eq_limited (N : ℕ) (W now : ℚ) (calls : List ℚ) (c0 : ℚ)
    (rest : List ℚ)
    (hk : RateLimiter.evict ⟨N, W, calls⟩ now = c0 :: rest)
    (hfull : N ≤ (c0 :: rest).length)
    (hsleep : 0 < W - (now - c0) + 1 / 100) :
    RateLimiter.acquire ⟨N, W, calls⟩ now
      = some (⟨N, W, (c0 :: rest) ++ [now + (W - (now - c0) + 1 / 100)]⟩,
        now + (W - (now - c0) + 1 / 100)) := by
  unfold RateLimiter.acquire
  rw [hk]
  rw [if_pos hfull]
  simp only
  rw [if_pos hsleep]

/-- Helper for C1: `acquire` on the free path — after eviction the deque is
below capacity, so the call is recorded immediately at `now`. -/
theorem acquire_eq_free (N : ℕ) (W now : ℚ) (calls : List ℚ)
    (h : ¬ N ≤ (RateLimiter.evict ⟨N, W, calls⟩ now).length) :
    RateLimiter.acquire ⟨N, W, calls⟩ now
      = some (⟨N, W, RateLimiter.evict ⟨N, W, calls⟩ now ++ [now]⟩, now) := by
  unfold RateLimiter.acquire
  rw [if_neg h]

/-- Helper for C1: one `acquire` call at a nonnegative delay after the
previous call preserves the reachability invariant and never hits the
empty-deque error path. -/
theorem acquire_step (N : ℕ) (W t d : ℚ) (calls : List ℚ) (hist : List ℚ)
    (hN : 1 ≤ N) (hinv : RateLimiterInv N W t ⟨N, W, calls⟩ hist) (hd : 0 ≤ d) :
    ∃ (callsNext : List ℚ) (tNext : ℚ),
      RateLimiter.acquire ⟨N, W, calls⟩ (t + d) = some (⟨N, W, callsNext⟩, tNext)
      ∧ t ≤ tNext
      ∧ RateLimiterInv N W tNext ⟨N, W, callsNext⟩ (hist ++ [tNext]) := by
  simp only [RateLimiterInv] at hinv
  obtain ⟨-, -, hlen, hhead, ⟨pre, hhist, hpre⟩, hwin⟩ := hinv
  set now := t + d with hnow
  have htnow : t ≤ now := le_add_of_nonneg_right hd
  have hkdef : RateLimiter.evict ⟨N, W, calls⟩ now
      = calls.dropWhile (fun c => decide (W ≤ now - c)) := rfl
  set kept := calls.dropWhile (fun c => decide (W ≤ now - c)) with hkept
  set dropped := calls.takeWhile (fun c => decide (W ≤ now - c)) with hdropped
  have hsplit : dropped ++ kept = calls :=
    List.takeWhile_append_dropWhile (fun c => decide (W ≤ now - c)) calls
  have hdrop_old : ∀ c ∈ dropped, c + W ≤ now := by
    intro c hc
    have := List.mem_takeWhile_imp hc
    simp only [decide_eq_true_eq] at this
    linarith
  have hpre_now : ∀ a ∈ pre ++ dropped, a + W ≤ now := by
    intro a ha
    rcases List.mem_append.mp ha with h | h
    · linarith [hpre a h]
    · exact hdrop_old a h
  have hhist2 : hist = (pre ++ dropped) ++ kept := by
    rw [List.append_assoc, hsplit]
    exact hhist
  have hkeptlen : kept.length ≤ N := by
    by_cases hl : calls.length = N + 1
    · obtain ⟨c0, cs, hc0, hc0W⟩ := hhead hl
      have hpc0 : (fun c => decide (W ≤ now - c)) c0 = true := by
        simp only [decide_eq_true_eq]
        linarith
      have hkcs : kept = cs.dropWhile (fun c => decide (W ≤ now - c)) := by
        rw [hkept, hc0, List.dropWhile_cons, if_pos (by simpa using hpc0)]
      have h1 : kept.length ≤ cs.length := by
        rw [hkcs]
        exact (List.dropWhile_sublist _).length_le
      have h2 : cs.length = N := by
        have := congrArg List.length hc0
        simp only [List.length_cons] at this
        omega
      omega
    · have h1 : calls.length ≤ N := by omega
      have h2 : kept.length ≤ calls.length := by
        rw [hkept]
        exact (List.dropWhile_sublist _).length_le
      omega
  by_cases hfull : N ≤ kept.length
  · -- rate-limited path
    have hkeq : kept.length = N := le_antisymm hkeptlen hfull
    obtain ⟨c0, rest, hcr⟩ : ∃ c0 rest, kept = c0 :: rest := by
      cases hk : kept with
      | nil => rw [hk] at hkeq; simp at hkeq; omega
      | cons a b => exact ⟨a, b, rfl⟩
    have hc0_false : ¬ (W ≤ now - c0) := by
      have := dropWhile_head_false (fun c => decide (W ≤ now - c)) calls c0 rest
        (by rw [← hkept]; exact hcr)
      simpa using this
    have hc0W : now - c0 < W := not_le.mp hc0_false
    have hsleep : 0 < W - (now - c0) + 1 / 100 := by linarith
    set tN := now + (W - (now - c0) + 1 / 100) with htNdef
    have htN : tN = c0 + W + 1 / 100 := by rw [htNdef]; ring
    have hnowtN : now ≤ tN := by rw [htNdef]; linarith
    refine ⟨(c0 :: rest) ++ [tN], tN, ?_, by linarith, ?_⟩
    · exact acquire_eq_limited N W now calls c0 rest (hkdef.trans hcr)
        (by rw [← hcr]; exact hfull) hsleep
    · simp only [RateLimiterInv]
      have hrestlen : rest.length = N - 1 := by
        rw [hcr] at hkeq
        simp only [List.length_cons] at hkeq
        omega
      refine ⟨trivial, trivial, ?_, ?_, ?_, ?_⟩
      · simp
        omega
      · intro _
        refine ⟨c0, rest ++ [tN], by simp, ?_⟩
        rw [htN]
        linarith
      · refine ⟨pre ++ dropped, ?_, ?_⟩
        · rw [hhist2, hcr]
          simp [List.append_assoc]
        · intro a ha
          linarith [hpre_now a ha]
      · intro T
        rw [List.countP_append]
        by_cases hTin : inWindow W T tN = true
        · have hT12 : T - W < tN ∧ tN ≤ T := by simpa [inWindow] using hTin
          have hpre0 : (pre ++ dropped).countP (inWindow W T) = 0 := by
            rw [List.countP_eq_zero]
            intro a ha
            simp only [inWindow, decide_eq_true_eq, not_and]
            intro h1
            exfalso
            have := hpre_now a ha
            linarith [hT12.1, hT12.2]
          have hc0notin : ¬ inWindow W T c0 = true := by
            simp only [inWindow, decide_eq_true_eq, not_and]
            intro h1
            exfalso
            have : c0 + W + 1 / 100 ≤ T := by rw [← htN]; exact hT12.2
            linarith
          have hkc : kept.countP (inWindow W T) = rest.countP (inWindow W T) := by
            rw [hcr]
            exact List.countP_cons_of_neg _ _ hc0notin
          have hhc : hist.countP (inWindow W T)
              = (pre ++ dropped).countP (inWindow W T) + kept.countP (inWindow W T) := by
            rw [hhist2, List.countP_append]
          have hbound : hist.countP (inWindow W T) ≤ rest.length := by
            rw [hhc, hpre0, hkc]
            simpa using @List.countP_le_length ℚ (inWindow W T) rest
          have hone : [tN].countP (inWindow W T) = 1 := by
            simp [hTin]
          rw [hone]
          omega
        · have hzero : [tN].countP (inWindow W T) = 0 := by
            simp [List.countP_cons, hTin]
          rw [hzero]
          have := hwin T
          omega
  · -- free path
    refine ⟨kept ++ [now], now, ?_, htnow, ?_⟩
    · have := acquire_eq_free N W now calls (by rw [hkdef]; exact hfull)
      rw [hkdef] at this
      exact this
    · simp only [RateLimiterInv]
      have hklt : kept.length < N := not_le.mp hfull
      refine ⟨trivial, trivial, ?_, ?_, ?_, ?_⟩
      · simp
        omega
      · intro habs
        exfalso
        simp at habs
        omega
      · refine ⟨pre ++ dropped, ?_, ?_⟩
        · rw [hhist2]
          simp [List.append_assoc]
        · intro a ha
          exact hpre_now a ha
      · intro T
        rw [List.countP_append]
        by_cases hTin : inWindow W T now = true
        · have hT12 : T - W < now ∧ now ≤ T := by simpa [inWindow] using hTin
          have hpre0 : (pre ++ dropped).countP (inWindow W T) = 0 := by
            rw [List.countP_eq_zero]
            intro a ha
            simp only [inWindow, decide_eq_true_eq, not_and]
            intro h1
            exfalso
            have := hpre_now a ha
            linarith [hT12.1, hT12.2]
          have hhc : hist.countP (inWindow W T)
              = (pre ++ dropped).countP (inWindow W T) + kept.countP (inWindow W T) := by
            rw [hhist2, List.countP_append]
          have hbound : hist.countP (inWindow W T) ≤ kept.length := by
            rw [hhc, hpre0]
            simpa using @List.countP_le_length ℚ (inWindow W T) kept
          have hone : [now].countP (inWindow W T) = 1 := by
            simp [hTin]
          rw [hone]
          omega
        · have hzero : [now].countP (inWindow W T) = 0 := by
            simp [List.countP_cons, hTin]
          rw [hzero]
          have := hwin T
          omega

/-- Helper for C1: running a whole trace of `acquire` calls from an
invariant state succeeds and keeps every trailing window at or below the
quota. -/
theorem runAcquire_window (N : ℕ) (W : ℚ) (hN : 1 ≤ N) :
    ∀ (ds : List ℚ) (t : ℚ) (calls hist : List ℚ),
    RateLimiterInv N W t ⟨N, W, calls⟩ hist →
    (∀ d ∈ ds, 0 ≤ d) →
    ∃ as, runAcquire ⟨N, W, calls⟩ t ds = some as
      ∧ ∀ T, (hist ++ as).countP (inWindow W T) ≤ N := by
  intro ds
  induction ds with
  | nil =>
    intro t calls hist hinv _
    refine ⟨[], rfl, ?_⟩
    intro T
    have := hinv.2.2.2.2.2 T
    simpa using this
  | cons d ds ih =>
    intro t calls hist hinv hds
    obtain ⟨callsN, tN, hacq, htle, hinvN⟩ :=
      acquire_step N W t d calls hist hN hinv (hds d (List.mem_cons_self _ _))
    obtain ⟨as, hrun, hwin⟩ := ih tN callsN (hist ++ [tN]) hinvN
      (fun x hx => hds x (List.mem_cons_of_mem _ hx))
    refine ⟨tN :: as, ?_, ?_⟩
    · rw [runAcquire, hacq]
      simp [hrun]
    · intro T
      have h := hwin T
      rw [List.append_assoc] at h
      simpa using h

/-- C1: for every `RateLimiter` with `max_calls = N ≥ 1` and window
`period_seconds = W`, every sequential trace of `acquire` calls admits at
most `N` calls whose recorded timestamps fall inside any trailing window
`(T - W, T]`; and when, after evicting the expired timestamps, `N` calls
are still recorded in the current window, `acquire` sleeps until the oldest
recorded timestamp exits the trailing window plus the 0.01 s epsilon, and
records the new call exactly then. -/
theorem rate_limiter_sliding_window :
    (∀ (N : ℕ) (W t0 : ℚ) (ds as : List ℚ),
      1 ≤ N → 0 < W → (∀ d ∈ ds, 0 ≤ d) →
      runAcquire ⟨N, W, []⟩ t0 ds = some as →
      ∀ T, as.countP (inWindow W T) ≤ N)
    ∧ (∀ (N : ℕ) (W now c0 : ℚ) (calls rest : List ℚ),
      1 ≤ N →
      RateLimiter.evict ⟨N, W, calls⟩ now = c0 :: rest →
      (c0 :: rest).length = N →
      RateLimiter.acquire ⟨N, W, calls⟩ now
        = some (⟨N, W, (c0 :: rest) ++ [c0 + W + 1 / 100]⟩, c0 + W + 1 / 100)) := by
  constructor
  · intro N W t0 ds as hN hW hds hrun T
    have hinv0 : RateLimiterInv N W t0 ⟨N, W, []⟩ [] := by
      refine ⟨rfl, rfl, by simp, by intro h; simp at h, ⟨[], by simp, by simp⟩, by simp⟩
    obtain ⟨as2, hrun2, hwin⟩ := runAcquire_window N W hN ds t0 [] [] hinv0 hds
    rw [hrun] at hrun2
    have : as = as2 := Option.some.inj hrun2
    subst this
    simpa using hwin T
  · intro N W now c0 calls rest hN hev hlen
    have hc0_false : ¬ (W ≤ now - c0) := by
      have := dropWhile_head_false (fun c => decide (W ≤ now - c)) calls c0 rest hev
      simpa using this
    have hsleep : 0 < W - (now - c0) + 1 / 100 := by
      have := not_le.mp hc0_false
      linarith
    have heq := acquire_eq_limited N W now calls c0 rest hev (by omega) hsleep
    rw [heq]
    have harith : now + (W - (now - c0) + 1 / 100) = c0 + W + 1 / 100 := by ring
    rw [harith]

/-- Witness for C1: with quota 1 per 10 s and two immediate calls, the
recorded timestamps are 0 and 10.01, so any trailing 10 s window holds at
most one call; and a concrete at-capacity `acquire` sleeps until the oldest
timestamp leaves the window plus epsilon. -/
theorem rate_limiter_sliding_window_witness :
    List.countP (inWindow 10 5) [0, 1001 / 100] ≤ 1
    ∧ RateLimiter.acquire ⟨1, 10, [0]⟩ 5
        = some (⟨1, 10, [0, 0 + 10 + 1 / 100]⟩, 0 + 10 + 1 / 100) := by
  constructor
  · exact rate_limiter_sliding_window.1 1 10 0 [0, 0] [0, 1001 / 100]
      (le_refl 1) (by norm_num) (by intro d hd; fin_cases hd <;> norm_num)
      (by norm_num [runAcquire, RateLimiter.acquire, RateLimiter.evict]) 5
  · exact rate_limiter_sliding_window.2 1 10 5 0 [0] []
      (le_refl 1) (by norm_num [RateLimiter.evict]) rfl

end Momentum
